import Mathlib

/-!
Verification of the segment wire codec (`segment/encoding.go`) of the
scion-pns repository.

The Go source under `src/segment/encoding.go` is embedded shallowly:
  * byte buffers are lists of natural numbers (each entry a byte value);
  * Go runtime panics (out-of-range indexing / slicing) are modelled by
    `Option` results (`none`) resp. a dedicated `panic` result constructor;
  * the segment model (`Literal`, `Composition`, `Fingerprint`,
    `FromInterfaces`, `FromSegments`), which lives in a repository file that
    is not part of `src/`, is modelled from the spec, see the doc comments.
-/

namespace Pns

/-- A SCION path interface: a 64-bit interface identifier together with a
64-bit packed ISD-AS identifier (`snet.PathInterface` in the source; the
`addr.IA`/`addr.IAInt` conversions are mutually inverse bijections on 64-bit
values, so both fields are modelled as the raw 64-bit numbers that appear on
the wire). -/
structure PathInterface where
  id : Nat
  ia : Nat
deriving DecidableEq, Repr

/-- Modelled from the spec: the `Segment` interface type with its two
variants (`Literal` with an ordered interface list, `Composition` with an
ordered child list).  `nilSeg` models Go's nil interface value: it is the
zero value filling the decoder's pre-allocated `make([]Segment, numsegs)`
slice and is never produced by the constructors of the segment model. -/
inductive Segment where
  | nilSeg : Segment
  | literal (interfaces : List PathInterface) : Segment
  | composition (segments : List Segment) : Segment

mutual
/-- Boolean structural equality on segments (with `Segment.beqList`). -/
def Segment.beq : Segment → Segment → Bool
  | .nilSeg, .nilSeg => true
  | .literal a, .literal b => a == b
  | .composition a, .composition b => Segment.beqList a b
  | _, _ => false

/-- Boolean structural equality on segment lists (with `Segment.beq`). -/
def Segment.beqList : List Segment → List Segment → Bool
  | [], [] => true
  | a :: as, b :: bs => Segment.beq a b && Segment.beqList as bs
  | _, _ => false
end

mutual
theorem Segment.beq_iff : ∀ a b : Segment, Segment.beq a b = true ↔ a = b
  | .nilSeg, .nilSeg => by simp [Segment.beq]
  | .nilSeg, .literal _ => by simp [Segment.beq]
  | .nilSeg, .composition _ => by simp [Segment.beq]
  | .literal _, .nilSeg => by simp [Segment.beq]
  | .literal a, .literal b => by simp [Segment.beq]
  | .literal _, .composition _ => by simp [Segment.beq]
  | .composition _, .nilSeg => by simp [Segment.beq]
  | .composition _, .literal _ => by simp [Segment.beq]
  | .composition a, .composition b => by
      simp [Segment.beq, Segment.beqList_iff a b]
theorem Segment.beqList_iff : ∀ a b : List Segment, Segment.beqList a b = true ↔ a = b
  | [], [] => by simp [Segment.beqList]
  | [], _ :: _ => by simp [Segment.beqList]
  | _ :: _, [] => by simp [Segment.beqList]
  | a :: as, b :: bs => by
      simp [Segment.beqList, Segment.beq_iff a b, Segment.beqList_iff as bs]
end

instance : DecidableEq Segment := fun a b =>
  decidable_of_iff (Segment.beq a b = true) (Segment.beq_iff a b)

/-- Modelled from the spec: `FromInterfaces(interfaces...)` constructs a
`Literal` from an ordered interface sequence. -/
def FromInterfaces (interfaces : List PathInterface) : Segment :=
  .literal interfaces

/-- Modelled from the spec: `FromSegments(segments...)` constructs a
`Composition` from an ordered child sequence (a single child gives the
degenerate wrapper composition used by the encoder). -/
def FromSegments (segments : List Segment) : Segment :=
  .composition segments

/-- Modelled from the spec: `Fingerprint` is a deterministic content-derived
key that never collides for structurally distinct segments and is consumed
opaquely by the codec as a map key.  A key space that realises exactly these
two requirements (determinism and injectivity) is the segment values
themselves under structural equality, so the fingerprint of a segment is
modelled as the segment value itself. -/
def Segment.Fingerprint (s : Segment) : Segment := s

/-- The encoder's `segidx` map from fingerprints to indices
(`map[string]int` in the source), as an association list whose head is the
most recent insertion. -/
def SegIdx := List (Segment × Nat)

/-- Map lookup: the most recently inserted binding of the key wins,
mirroring Go map insertion semantics. -/
def SegIdx.find : SegIdx → Segment → Option Nat
  | [], _ => none
  | (a, i) :: rest, k => if a = k then some i else SegIdx.find rest k

/-- Map insertion (`segidx[fprint] = idx`). -/
def SegIdx.insert (m : SegIdx) (k : Segment) (v : Nat) : SegIdx :=
  (k, v) :: m

/-! ### Byte-level helpers

Big-endian multi-byte fields of `encoding/binary`.  `binary.BigEndian`
reads panic when fewer bytes than the width remain, hence the `Option`. -/

/-- Read a `w`-byte big-endian value at offset `i`; `none` models the Go
panic when the slice holds fewer than `w` bytes past `i`. -/
def readBE (bs : List Nat) (i w : Nat) : Option Nat :=
  if i + w ≤ bs.length then
    some (((bs.drop i).take w).foldl (fun a b => a * 256 + b) 0)
  else none

/-- `binary.BigEndian.Uint16(bytes[i:])`. -/
def readU16 (bs : List Nat) (i : Nat) : Option Nat := readBE bs i 2

/-- `binary.BigEndian.Uint64(bytes[i:])`. -/
def readU64 (bs : List Nat) (i : Nat) : Option Nat := readBE bs i 8

/-- `binary.BigEndian.PutUint16`: the two big-endian bytes of `x`
(truncating to 16 bits, as the Go `uint16` conversion does). -/
def be16 (x : Nat) : List Nat :=
  [x / 256 % 256, x % 256]

/-- `binary.BigEndian.PutUint64`: the eight big-endian bytes of `x`
(truncating to 64 bits, as the Go `uint64` conversion does). -/
def be64 (x : Nat) : List Nat :=
  [x / 256 ^ 7 % 256, x / 256 ^ 6 % 256, x / 256 ^ 5 % 256, x / 256 ^ 4 % 256,
   x / 256 ^ 3 % 256, x / 256 ^ 2 % 256, x / 256 % 256, x % 256]

/-- Go re-slicing `bytes = bytes[k:]`; `none` models the panic when `k`
exceeds the slice length. -/
def dropN (bs : List Nat) (k : Nat) : Option (List Nat) :=
  if k ≤ bs.length then some (bs.drop k) else none

/-! ### DecodeSegments (`encoding.go` lines 22-63) -/

/-- Outcome of a `DecodeSegments` call: a normal return
`(newsegs, accsegs, srcIA, dstIA, nil)`, the
`errors.New("subsegment id is greater/equal to segment id")` return (which
still carries the parsed `srcIA`/`dstIA` and nil slices), or a Go runtime
panic from out-of-range indexing/slicing. -/
inductive DecodeResult where
  | ok (newsegs accsegs : List Segment) (srcIA dstIA : Nat)
  | invalidRef (srcIA dstIA : Nat)
  | panic
deriving DecidableEq

/-- Outcome of the subsegment-reference resolution loop inside the
`SegTypeComposition` case of `DecodeSegments`. -/
inductive RefRes where
  | ok (subsegs : List Segment)
  | invalidRef
  | panic
deriving DecidableEq

/-- Outcome of the record loop of `DecodeSegments`. -/
inductive LoopRes where
  | ok (newsegs accsegs : List Segment)
  | invalidRef
  | panic
deriving DecidableEq

/-- `DecodeInterfaces(bytes, seglen)` (lines 66-78), reading interface `i`
at offsets `i*16` and `i*16+8`; the extra first argument is the running
loop counter `i`. -/
def decodeInterfacesFrom (bs : List Nat) : Nat → Nat → Option (List PathInterface)
  | _, 0 => some []
  | i, n + 1 =>
    match readU64 bs (i * 16), readU64 bs (i * 16 + 8) with
    | some id, some ia =>
      match decodeInterfacesFrom bs (i + 1) n with
      | some rest => some (⟨id, ia⟩ :: rest)
      | none => none
    | _, _ => none

/-- `DecodeInterfaces(bytes, seglen)` (lines 66-78). -/
def DecodeInterfaces (bs : List Nat) (seglen : Nat) : Option (List PathInterface) :=
  decodeInterfacesFrom bs 0 seglen

/-- The inner loop of the `SegTypeComposition` case (lines 43-56): resolve
`seglen` two-byte indices read at offsets `4 + j*2`, each against
`oldsegs` first and the (partially populated, nil-initialised) `newsegs`
slice second; indices beyond both yield the invalid-reference error. -/
def decodeRefs (oldsegs newsegs : List Segment) (bs : List Nat) : Nat → Nat → RefRes
  | _, 0 => .ok []
  | j, n + 1 =>
    match readU16 bs (4 + j * 2) with
    | none => .panic
    | some id =>
      if id < oldsegs.length then
        match decodeRefs oldsegs newsegs bs (j + 1) n with
        | .ok rest => .ok (oldsegs.getD id .nilSeg :: rest)
        | e => e
      else if id < oldsegs.length + newsegs.length then
        match decodeRefs oldsegs newsegs bs (j + 1) n with
        | .ok rest => .ok (newsegs.getD (id - oldsegs.length) .nilSeg :: rest)
        | e => e
      else .invalidRef

/-- The record loop of `DecodeSegments` (lines 30-61): `i` is the loop
index, the last argument the remaining record count, `newsegs` the
pre-allocated slice (`make([]Segment, numsegs)`, nil-filled), `accsegs`
the accumulator of accepted records. -/
def decodeLoop (oldsegs : List Segment) :
    List Nat → Nat → List Segment → List Segment → Nat → LoopRes
  | _, _, newsegs, accsegs, 0 => .ok newsegs accsegs
  | bs, i, newsegs, accsegs, n + 1 =>
    match bs[0]?, bs[1]?, readU16 bs 2 with
    | some flags, some seglen, some optlen =>
      let accepted := flags / 2 % 2 == 1
      if flags % 2 = 0 then
        match DecodeInterfaces (bs.drop 4) seglen with
        | none => .panic
        | some ifaces =>
          let seg := FromInterfaces ifaces
          match dropN bs (4 + seglen * 16 + optlen) with
          | none => .panic
          | some bs1 =>
            decodeLoop oldsegs bs1 (i + 1) (newsegs.set i seg)
              (if accepted then accsegs ++ [seg] else accsegs) n
      else
        match decodeRefs oldsegs newsegs bs 0 seglen with
        | .panic => .panic
        | .invalidRef => .invalidRef
        | .ok subsegs =>
          let seg := FromSegments subsegs
          match dropN bs (4 + seglen * 2 + optlen) with
          | none => .panic
          | some bs1 =>
            decodeLoop oldsegs bs1 (i + 1) (newsegs.set i seg)
              (if accepted then accsegs ++ [seg] else accsegs) n
    | _, _, _ => .panic

/-- `DecodeSegments(bytes, oldsegs)` (lines 22-63): parse the header fields
at offsets 1, 2, 4 and 12, slice off `hdrlen` bytes and run the record
loop over a nil-pre-allocated `newsegs` slice of length `numsegs`. -/
def DecodeSegments (bytes : List Nat) (oldsegs : List Segment) : DecodeResult :=
  match bytes[1]?, readU16 bytes 2, readU64 bytes 4, readU64 bytes 12 with
  | some hdrlen, some numsegs, some srcIA, some dstIA =>
    match dropN bytes hdrlen with
    | none => .panic
    | some body =>
      match decodeLoop oldsegs body 0 (List.replicate numsegs .nilSeg) [] numsegs with
      | .ok newsegs accsegs => .ok newsegs accsegs srcIA dstIA
      | .invalidRef => .invalidRef srcIA dstIA
      | .panic => .panic
  | _, _, _, _ => .panic

/-! ### EncodeSegments (`encoding.go` lines 79-183) -/

/-- `EncodeInterfaces(bytes, interfaces)` (lines 177-182): the 16-byte
big-endian wire image of each interface, in order. -/
def EncodeInterfaces : List PathInterface → List Nat
  | [] => []
  | p :: rest => be64 p.id ++ be64 p.ia ++ EncodeInterfaces rest

/-- The payload loop of the `Composition` case of `EncodeSegment`
(lines 145-148): each child contributes the two big-endian bytes of
`uint16(segidx[subseg.Fingerprint()])`; a missing key yields the Go map
zero value 0. -/
def encodeRefs : List Segment → SegIdx → List Nat
  | [], _ => []
  | s :: rest, m => be16 ((m.find s.Fingerprint).getD 0) ++ encodeRefs rest m

/-- `EncodeSegment(segment, accepted, segidx)` (lines 127-160): flags byte,
`uint8` segment length, `uint16` option length (always 0), then the
type-specific payload.  `none` models the panic of `bytes[0] = flags` when
the segment is the nil interface value (no switch case assigns `bytes`). -/
def EncodeSegment (segment : Segment) (accepted : Bool) (segidx : SegIdx) :
    Option (List Nat) :=
  let flags := if accepted then 2 else 0
  match segment with
  | .literal ifaces =>
    some ([flags, ifaces.length % 256, 0, 0] ++ EncodeInterfaces ifaces)
  | .composition segs =>
    some ([flags + 1, segs.length % 256, 0, 0] ++ encodeRefs segs segidx)
  | .nilSeg => none

mutual
/-- `RecursiveSubsegments(segment)` (lines 162-174): the post-order list of
proper subsegments of a composition; literals (and the nil value, which
matches no switch case) contribute the empty list. -/
def RecursiveSubsegments : Segment → List Segment
  | .composition segs => subsegsList segs
  | _ => []
/-- The loop body of `RecursiveSubsegments`: children in order, each
preceded by its own recursive subsegment list. -/
def subsegsList : List Segment → List Segment
  | [] => []
  | s :: rest => RecursiveSubsegments s ++ [s] ++ subsegsList rest
end

/-- The inner subsegment loop of `EncodeSegments` (lines 95-105): walk the
post-order subsegment list; a fingerprint not yet in the table is assigned
the next index, emitted as an unaccepted record and appended to
`sentsegs`; known fingerprints are skipped entirely. -/
def encodeSubsegs : List Segment → SegIdx → Nat → List Nat → List Segment →
    Option (SegIdx × Nat × List Nat × List Segment)
  | [], m, idx, body, sent => some (m, idx, body, sent)
  | sub :: rest, m, idx, body, sent =>
    if (m.find sub.Fingerprint).isSome then
      encodeSubsegs rest m idx body sent
    else
      let m1 := m.insert sub.Fingerprint idx
      match EncodeSegment sub false m1 with
      | none => none
      | some bs => encodeSubsegs rest m1 (idx + 1) (body ++ bs) (sent ++ [sub])

/-- The outer loop of `EncodeSegments` (lines 94-120): per top-level
segment, first the subsegment loop, then the accepted record — a full
record for a fresh fingerprint, otherwise a single-child composition
wrapping `oldsegs[idx]` (which panics, `none`, when `idx` is an index
assigned during this call, i.e. not smaller than `len(oldsegs)`). -/
def encodeTops (oldsegs : List Segment) : List Segment → SegIdx → Nat → List Nat →
    List Segment → Option (SegIdx × Nat × List Nat × List Segment)
  | [], m, idx, body, sent => some (m, idx, body, sent)
  | newseg :: rest, m, idx, body, sent =>
    match encodeSubsegs (RecursiveSubsegments newseg) m idx body sent with
    | none => none
    | some (m1, idx1, body1, sent1) =>
      match m1.find newseg.Fingerprint with
      | none =>
        let m2 := m1.insert newseg.Fingerprint idx1
        match EncodeSegment newseg true m2 with
        | none => none
        | some bs => encodeTops oldsegs rest m2 (idx1 + 1) (body1 ++ bs) (sent1 ++ [newseg])
      | some i =>
        match oldsegs[i]? with
        | none => none
        | some oldseg =>
          match EncodeSegment (FromSegments [oldseg]) true m1 with
          | none => none
          | some bs =>
            encodeTops oldsegs rest m1 (idx1 + 1) (body1 ++ bs)
              (sent1 ++ [FromSegments [oldseg]])

/-- The `segidx` initialisation loop of `EncodeSegments` (lines 87-90):
`segidx[seg.Fingerprint()] = idx` for each old segment at its position. -/
def initIdx : List Segment → Nat → SegIdx → SegIdx
  | [], _, m => m
  | s :: rest, i, m => initIdx rest (i + 1) (m.insert s.Fingerprint i)

/-- `EncodeSegments(newsegs, oldsegs, srcIA, dstIA)` (lines 79-125): the
20-byte header (reserved byte, `hdrlen`, the `uint16` of the final running
index as `numsegs`, both 64-bit addresses) followed by the emitted record
bytes, together with `sentsegs`. -/
def EncodeSegments (newsegs oldsegs : List Segment) (srcIA dstIA : Nat) :
    Option (List Nat × List Segment) :=
  match encodeTops oldsegs newsegs (initIdx oldsegs 0 []) oldsegs.length [] [] with
  | none => none
  | some (_, idx, body, sent) =>
    some ([0, 20] ++ be16 idx ++ be64 srcIA ++ be64 dstIA ++ body, sent)

/-! ### Well-formed segments

A segment value is well formed when it contains no nil interface value and
every count and identifier fits the wire field that carries it: interface
and child counts fit the one-byte `seglen` field, interface identifiers fit
their eight wire bytes (in Go this is enforced by the `uint64`-based field
types). -/

mutual
/-- Well-formedness of a segment (see the section comment). -/
def Segment.wf : Segment → Bool
  | .nilSeg => false
  | .literal ifaces =>
    decide (ifaces.length < 256) &&
      ifaces.all fun p => decide (p.id < 2 ^ 64) && decide (p.ia < 2 ^ 64)
  | .composition segs => decide (segs.length < 256) && Segment.wfList segs
/-- Well-formedness of every segment in a list. -/
def Segment.wfList : List Segment → Bool
  | [] => true
  | s :: rest => Segment.wf s && Segment.wfList rest
end

/-! ### The accepted bit of each record

Used to state the accepted-filtering property: the per-record flags bits
read by the decoder, extracted by walking the record stream with the same
offsets and the same skip arithmetic as the record loop of
`DecodeSegments`. -/

/-- The accepted bit (bit 1 of the flags byte) of each of `n` consecutive
records, together with the type-dependent skip of `DecodeSegments`. -/
def acceptedBits : List Nat → Nat → Option (List Bool)
  | _, 0 => some []
  | bs, n + 1 =>
    match bs[0]?, bs[1]?, readU16 bs 2 with
    | some flags, some seglen, some optlen =>
      let skip := if flags % 2 = 0 then 4 + seglen * 16 + optlen else 4 + seglen * 2 + optlen
      match dropN bs skip with
      | none => none
      | some bs1 =>
        match acceptedBits bs1 n with
        | none => none
        | some rest => some ((flags / 2 % 2 == 1) :: rest)
    | _, _, _ => none

/-! ### Round-trip invariants

The round-trip proof relates the encoder's emitted record stream to the
decoder's record loop through the following predicates over the final
`sentsegs` list. -/

/-- A record chunk for segment `seg` with accepted bit `b`, decodable at
record position `j` of a message whose earlier records decode to the
prefix of `fin`: a Literal record carries its interfaces in full (with the
counts and identifiers fitting their wire fields), a Composition record
carries one 16-bit index per child, each strictly smaller than `j` and
naming the child's position in `fin`. -/
def GoodChunk (fin : List Segment) (j : Nat) (chunk : List Nat) (seg : Segment)
    (b : Bool) : Prop :=
  (∃ ifaces : List PathInterface, seg = .literal ifaces ∧ ifaces.length < 256 ∧
    (∀ p ∈ ifaces, p.id < 2 ^ 64 ∧ p.ia < 2 ^ 64) ∧
    chunk = (if b then 2 else 0) :: ifaces.length :: 0 :: 0 :: EncodeInterfaces ifaces) ∨
  (∃ (cs : List Segment) (idxs : List Nat), seg = .composition cs ∧ cs.length < 256 ∧
    List.Forall₂ (fun c i => i < j ∧ fin[i]? = some c) cs idxs ∧
    chunk = ((if b then 2 else 0) + 1) :: cs.length :: 0 :: 0 :: (idxs.map be16).flatten)

/-- A stream of `n` consecutive good record chunks for the segments of
`fin` at positions `j, j+1, ...`. -/
def GoodStream (fin : List Segment) : Nat → Nat → List Nat → Prop
  | _, 0, stream => stream = []
  | j, n + 1, stream => ∃ (chunk rest : List Nat) (seg : Segment) (b : Bool),
      stream = chunk ++ rest ∧ fin[j]? = some seg ∧ GoodChunk fin j chunk seg b ∧
      GoodStream fin (j + 1) n rest

/-- The index table is exactly the position table of `sent`: a fingerprint
maps to `i` precisely when `sent` holds that segment at position `i`.
During an encode call with empty `oldsegs` every table insertion is paired
with an emission, so this invariant characterises the table. -/
def SegIdx.Agrees (m : SegIdx) (sent : List Segment) : Prop :=
  ∀ (s : Segment) (i : Nat), m.find s = some i ↔ sent[i]? = some s

/-- The encoder invariant for empty `oldsegs`: the running index counts
the emitted records, the table agrees with the emitted list, and the
emitted bytes form a good record stream for it. -/
def EncInv (m : SegIdx) (idx : Nat) (body : List Nat) (sent : List Segment) : Prop :=
  idx = sent.length ∧ SegIdx.Agrees m sent ∧ GoodStream sent 0 sent.length body

/-! ## Helper lemmas -/

/-- Reference-payload bytes of a composition: the two bytes of child `j`
are the big-endian image of its index-table entry (0 when absent). -/
theorem encodeRefs_getElem : ∀ (cs : List Segment) (m : SegIdx) (j : Nat) (c : Segment),
    cs[j]? = some c →
    (encodeRefs cs m)[2 * j]? = some (((m.find c.Fingerprint).getD 0) / 256 % 256) ∧
      (encodeRefs cs m)[2 * j + 1]? = some (((m.find c.Fingerprint).getD 0) % 256) := by
  intro cs
  induction cs with
  | nil => intro m j c hc; simp at hc
  | cons s rest ih =>
    intro m j c hc
    match j with
    | 0 =>
      simp only [List.getElem?_cons_zero, Option.some.injEq] at hc
      subst hc
      simp [encodeRefs, be16]
    | j + 1 =>
      simp only [List.getElem?_cons_succ] at hc
      rw [show 2 * (j + 1) + 1 = 2 * j + 1 + 1 + 1 by omega,
        show 2 * (j + 1) = 2 * j + 1 + 1 by omega]
      simp only [encodeRefs, be16, List.cons_append, List.nil_append,
        List.getElem?_cons_succ]
      exact ih m j c hc

/-- The subsegment loop advances the running index by exactly the number
of segments it appends to `sentsegs`. -/
theorem encodeSubsegs_idx : ∀ (L : List Segment) (m : SegIdx) (idx : Nat) (body : List Nat)
    (sent : List Segment) (m' : SegIdx) (idx' : Nat) (body' : List Nat) (sent' : List Segment),
    encodeSubsegs L m idx body sent = some (m', idx', body', sent') →
    idx' + sent.length = idx + sent'.length := by
  intro L
  induction L with
  | nil =>
    intro m idx body sent m' idx' body' sent' h
    simp only [encodeSubsegs, Option.some.injEq, Prod.mk.injEq] at h
    obtain ⟨-, h1, -, h2⟩ := h
    subst h1
    subst h2
    omega
  | cons sub rest ih =>
    intro m idx body sent m' idx' body' sent' h
    simp only [encodeSubsegs] at h
    split at h
    · exact ih _ _ _ _ _ _ _ _ h
    · split at h
      · exact absurd h (by simp)
      · have := ih _ _ _ _ _ _ _ _ h
        simp at this
        omega

/-- The outer loop advances the running index by exactly the number of
segments it appends to `sentsegs`. -/
theorem encodeTops_idx : ∀ (ns : List Segment) (oldsegs : List Segment) (m : SegIdx)
    (idx : Nat) (body : List Nat) (sent : List Segment) (m' : SegIdx) (idx' : Nat)
    (body' : List Nat) (sent' : List Segment),
    encodeTops oldsegs ns m idx body sent = some (m', idx', body', sent') →
    idx' + sent.length = idx + sent'.length := by
  intro ns
  induction ns with
  | nil =>
    intro oldsegs m idx body sent m' idx' body' sent' h
    simp only [encodeTops, Option.some.injEq, Prod.mk.injEq] at h
    obtain ⟨-, h1, -, h2⟩ := h
    subst h1
    subst h2
    omega
  | cons newseg rest ih =>
    intro oldsegs m idx body sent m' idx' body' sent' h
    simp only [encodeTops] at h
    split at h
    · exact absurd h (by simp)
    rename_i m1 idx1 body1 sent1 hs
    have hsub := encodeSubsegs_idx _ _ _ _ _ _ _ _ _ hs
    split at h
    · split at h
      · exact absurd h (by simp)
      · have := ih _ _ _ _ _ _ _ _ _ h
        simp at this
        omega
    · split at h
      · exact absurd h (by simp)
      split at h
      · exact absurd h (by simp)
      have := ih _ _ _ _ _ _ _ _ _ h
      simp at this
      omega

/-- Shifting a big-endian read over a leading byte. -/
theorem readBE_cons (a : Nat) (bs : List Nat) (i w : Nat) :
    readBE (a :: bs) (i + 1) w = readBE bs i w := by
  simp only [readBE, List.length_cons, List.drop_succ_cons,
    show i + 1 + w = i + w + 1 from by omega, Nat.add_le_add_iff_right]

/-- Shifting a big-endian read over a prefix. -/
theorem readBE_append : ∀ (pre : List Nat) (t : List Nat) (i w : Nat),
    readBE (pre ++ t) (pre.length + i) w = readBE t i w := by
  intro pre
  induction pre with
  | nil => intro t i w; simp
  | cons a pre ih =>
    intro t i w
    rw [List.cons_append, List.length_cons,
      show pre.length + 1 + i = (pre.length + i) + 1 by omega, readBE_cons]
    exact ih t i w

/-- Reading back a 16-bit value written big-endian. -/
theorem readU16_be16 (v : Nat) (rest : List Nat) :
    readU16 (be16 v ++ rest) 0 = some (v % 65536) := by
  simp only [readU16, readBE, be16, List.cons_append, List.length_cons]
  rw [if_pos (by omega)]
  simp only [List.drop_zero, List.take, List.foldl]
  simp
  omega

/-- Reading back a 64-bit value written big-endian. -/
theorem readU64_be64 (x : Nat) (rest : List Nat) :
    readU64 (be64 x ++ rest) 0 = some (x % 2 ^ 64) := by
  simp only [readU64, readBE, be64, List.cons_append, List.length_cons]
  rw [if_pos (by omega)]
  simp only [List.drop_zero, List.take, List.foldl]
  simp
  omega

/-- Reading the zero `optlen` field of an emitted record. -/
theorem readU16_zeros (f l : Nat) (t : List Nat) :
    readU16 (f :: l :: 0 :: 0 :: t) 2 = some 0 := by
  simp only [readU16, readBE, List.length_cons]
  rw [if_pos (by omega)]
  simp [List.drop, List.take]

/-- Re-slicing away a prefix of known length. -/
theorem dropN_append (pre rest : List Nat) : dropN (pre ++ rest) pre.length = some rest := by
  simp only [dropN, List.length_append]
  rw [if_pos (by omega), List.drop_left]

/-- The wire length of an interface list. -/
theorem length_EncodeInterfaces : ∀ ifaces : List PathInterface,
    (EncodeInterfaces ifaces).length = 16 * ifaces.length := by
  intro ifaces
  induction ifaces with
  | nil => rfl
  | cons p rest ih =>
    simp only [EncodeInterfaces, List.length_append, List.length_cons, ih, be64,
      List.length_nil]
    omega

/-- The wire length of a reference payload. -/
theorem length_flatten_be16 : ∀ idxs : List Nat,
    ((idxs.map be16).flatten).length = 2 * idxs.length := by
  intro idxs
  induction idxs with
  | nil => rfl
  | cons i rest ih =>
    simp only [List.map_cons, List.flatten_cons, List.length_append, ih, be16,
      List.length_cons, List.length_nil]
    omega

/-- Reading the `numsegs` field back from an encoded header. -/
theorem readU16_header (v : Nat) (rest : List Nat) :
    readU16 (0 :: 20 :: (be16 v ++ rest)) 2 = some (v % 65536) := by
  simp only [readU16, readBE, be16]
  simp only [List.cons_append, List.nil_append, List.length_cons]
  rw [if_pos (by omega)]
  simp only [List.drop, List.take, List.foldl]
  simp
  omega

/-- Shifting a 64-bit read over a prefix. -/
theorem readU64_append (pre t : List Nat) (i : Nat) :
    readU64 (pre ++ t) (pre.length + i) = readU64 t i :=
  readBE_append pre t i 8

/-- Shifting a 16-bit read over a prefix. -/
theorem readU16_append (pre t : List Nat) (i : Nat) :
    readU16 (pre ++ t) (pre.length + i) = readU16 t i :=
  readBE_append pre t i 2

/-- The reference payload is the flattened big-endian image of the
per-child table lookups (0 for a missing key). -/
theorem encodeRefs_flatten : ∀ (cs : List Segment) (m : SegIdx),
    encodeRefs cs m =
      ((cs.map fun c => (m.find c.Fingerprint).getD 0).map be16).flatten := by
  intro cs
  induction cs with
  | nil => intro m; rfl
  | cons s rest ih =>
    intro m
    simp only [encodeRefs, List.map_cons, List.flatten_cons, ih]

/-- The subsegment loop splits over list concatenation. -/
theorem encodeSubsegs_append : ∀ (A B : List Segment) (m : SegIdx) (idx : Nat)
    (body : List Nat) (sent : List Segment),
    encodeSubsegs (A ++ B) m idx body sent =
      match encodeSubsegs A m idx body sent with
      | none => none
      | some (m1, idx1, body1, sent1) => encodeSubsegs B m1 idx1 body1 sent1 := by
  intro A
  induction A with
  | nil => intro B m idx body sent; rfl
  | cons sub rest ih =>
    intro B m idx body sent
    simp only [List.cons_append, encodeSubsegs]
    by_cases hf : (m.find sub.Fingerprint).isSome = true
    · rw [if_pos hf, if_pos hf]
      exact ih B m idx body sent
    · rw [if_neg hf, if_neg hf]
      cases hE : EncodeSegment sub false (m.insert sub.Fingerprint idx) with
      | none => rfl
      | some bs => exact ih B _ _ _ _

/-- No segment is a child of itself (children are structurally smaller). -/
theorem ne_of_mem_composition {c : Segment} {cs : List Segment} (hc : c ∈ cs) :
    c ≠ Segment.composition cs := by
  intro heq
  have h1 := List.sizeOf_lt_of_mem hc
  rw [heq] at h1
  simp only [Segment.composition.sizeOf_spec] at h1
  omega

/-- Unfolding well-formedness of a Literal. -/
theorem wf_literal_iff (ifaces : List PathInterface) :
    Segment.wf (.literal ifaces) = true ↔
      ifaces.length < 256 ∧ ∀ p ∈ ifaces, p.id < 2 ^ 64 ∧ p.ia < 2 ^ 64 := by
  simp [Segment.wf, List.all_eq_true]

/-- Unfolding well-formedness of a Composition. -/
theorem wf_composition_iff (cs : List Segment) :
    Segment.wf (.composition cs) = true ↔
      cs.length < 256 ∧ Segment.wfList cs = true := by
  simp [Segment.wf]

/-- Unfolding well-formedness of a non-empty list. -/
theorem wfList_cons_iff (s : Segment) (rest : List Segment) :
    Segment.wfList (s :: rest) = true ↔
      Segment.wf s = true ∧ Segment.wfList rest = true := by
  simp [Segment.wfList]

/-- A table entry under `SegIdx.Agrees` names a position of `sent`. -/
theorem find_lt_of_agrees {m : SegIdx} {sent : List Segment} (h : m.Agrees sent)
    {s : Segment} {i : Nat} (hf : m.find s = some i) :
    i < sent.length ∧ sent[i]? = some s := by
  have hs := (h s i).mp hf
  refine ⟨?_, hs⟩
  by_contra hlt
  rw [List.getElem?_eq_none (by omega)] at hs
  exact absurd hs (by simp)

/-- Table entries survive any later state whose `sent` extends the
current one, as long as both states satisfy the invariant. -/
theorem find_mono_of_agrees {m m' : SegIdx} {sent sent' ext : List Segment}
    (h : m.Agrees sent) (h' : m'.Agrees sent') (hext : sent' = sent ++ ext)
    {s : Segment} {i : Nat} (hf : m.find s = some i) : m'.find s = some i := by
  obtain ⟨hlt, hs⟩ := find_lt_of_agrees h hf
  refine (h' s i).mpr ?_
  rw [hext, List.getElem?_append_left hlt]
  exact hs

/-- Inserting a fresh segment at position `sent.length` preserves the
table invariant for the extended `sent`. -/
theorem agrees_insert {m : SegIdx} {sent : List Segment} (s : Segment)
    (h : m.Agrees sent) (hnone : m.find s = none) :
    (m.insert s sent.length).Agrees (sent ++ [s]) := by
  intro t i
  simp only [SegIdx.insert, SegIdx.find]
  by_cases hts : s = t
  · subst hts
    rw [if_pos rfl]
    constructor
    · intro hi
      simp only [Option.some.injEq] at hi
      subst hi
      exact List.getElem?_concat_length sent s
    · intro hi
      rcases Nat.lt_trichotomy i sent.length with hlt | heq | hgt
      · rw [List.getElem?_append_left hlt] at hi
        exact absurd ((h s i).mpr hi) (by simp [hnone])
      · rw [heq]
      · rw [List.getElem?_eq_none (by simp; omega)] at hi
        exact absurd hi (by simp)
  · rw [if_neg hts]
    constructor
    · intro hf
      obtain ⟨hlt, hs⟩ := find_lt_of_agrees h hf
      rw [List.getElem?_append_left hlt]
      exact hs
    · intro hi
      rcases Nat.lt_trichotomy i sent.length with hlt | heq | hgt
      · rw [List.getElem?_append_left hlt] at hi
        exact (h t i).mpr hi
      · subst heq
        rw [List.getElem?_concat_length] at hi
        simp only [Option.some.injEq] at hi
        exact absurd hi hts
      · rw [List.getElem?_eq_none (by simp; omega)] at hi
        exact absurd hi (by simp)

/-- A good chunk stays good at any later position over any extension of
`fin`. -/
theorem GoodChunk_mono {fin ext : List Segment} {j j' : Nat} {chunk : List Nat}
    {seg : Segment} {b : Bool} (hj : j ≤ j') (h : GoodChunk fin j chunk seg b) :
    GoodChunk (fin ++ ext) j' chunk seg b := by
  rcases h with ⟨ifaces, hseg, hlen, hids, hchunk⟩ | ⟨cs, idxs, hseg, hlen, hfa, hchunk⟩
  · exact Or.inl ⟨ifaces, hseg, hlen, hids, hchunk⟩
  · refine Or.inr ⟨cs, idxs, hseg, hlen, ?_, hchunk⟩
    refine hfa.imp fun c i hc => ?_
    obtain ⟨hlt, hfin⟩ := hc
    have hinbound : i < fin.length := by
      by_contra hge
      rw [List.getElem?_eq_none (by omega)] at hfin
      exact absurd hfin (by simp)
    exact ⟨by omega, by rw [List.getElem?_append_left hinbound]; exact hfin⟩

/-- A good stream stays good over any extension of `fin`. -/
theorem GoodStream_mono {fin ext : List Segment} : ∀ (n j : Nat) (stream : List Nat),
    GoodStream fin j n stream → GoodStream (fin ++ ext) j n stream := by
  intro n
  induction n with
  | zero => intro j stream h; exact h
  | succ n ih =>
    intro j stream h
    obtain ⟨chunk, rest, seg, b, hsplit, hfin, hchunk, hrest⟩ := h
    have hinbound : j < fin.length := by
      by_contra hge
      rw [List.getElem?_eq_none (by omega)] at hfin
      exact absurd hfin (by simp)
    exact ⟨chunk, rest, seg, b, hsplit,
      by rw [List.getElem?_append_left hinbound]; exact hfin,
      GoodChunk_mono (Nat.le_refl j) hchunk, ih (j + 1) rest hrest⟩

/-- Appending one further good chunk to the end of a good stream. -/
theorem GoodStream_snoc {fin : List Segment} : ∀ (n j : Nat) (stream chunk : List Nat)
    (seg : Segment) (b : Bool),
    GoodStream fin j n stream → fin[j + n]? = some seg → GoodChunk fin (j + n) chunk seg b →
    GoodStream fin j (n + 1) (stream ++ chunk) := by
  intro n
  induction n with
  | zero =>
    intro j stream chunk seg b hstream hfin hchunk
    rw [show GoodStream fin j 0 stream = (stream = []) from rfl] at hstream
    subst hstream
    rw [Nat.add_zero] at hfin hchunk
    exact ⟨chunk, [], seg, b, by simp, hfin, hchunk, rfl⟩
  | succ n ih =>
    intro j stream chunk seg b hstream hfin hchunk
    obtain ⟨c0, r0, s0, b0, hsplit, hfin0, hchunk0, hrest⟩ := hstream
    refine ⟨c0, r0 ++ chunk, s0, b0, ?_, hfin0, hchunk0, ?_⟩
    · rw [hsplit, List.append_assoc]
    · exact ih (j + 1) r0 chunk seg b hrest
        (by rw [show j + 1 + n = j + (n + 1) from by omega]; exact hfin)
        (by rw [show j + 1 + n = j + (n + 1) from by omega]; exact hchunk)

/-- Emitting one fresh record preserves the encoder invariant: insert the
segment at the running index, append its record (whose composition child
references resolve through the pre-insertion table) and append it to
`sent`. -/
theorem emit_step {m : SegIdx} {idx : Nat} {body : List Nat} {sent : List Segment}
    (hinv : EncInv m idx body sent) (s : Segment) (b : Bool)
    (hwf : Segment.wf s = true)
    (hnone : m.find s.Fingerprint = none)
    (hchildren : ∀ cs, s = .composition cs → ∀ c ∈ cs, (m.find c).isSome = true)
    {bs : List Nat}
    (hE : EncodeSegment s b (m.insert s.Fingerprint idx) = some bs) :
    EncInv (m.insert s.Fingerprint idx) (idx + 1) (body ++ bs) (sent ++ [s]) := by
  obtain ⟨hidx, hagree, hstream⟩ := hinv
  subst hidx
  have hchunk : GoodChunk (sent ++ [s]) sent.length bs s b := by
    cases s with
    | nilSeg => exact absurd hwf (by simp [Segment.wf])
    | literal ifaces =>
      obtain ⟨hlen, hids⟩ := (wf_literal_iff ifaces).mp hwf
      simp only [EncodeSegment, Option.some.injEq] at hE
      refine Or.inl ⟨ifaces, rfl, hlen, hids, ?_⟩
      rw [← hE]
      simp [Nat.mod_eq_of_lt hlen]
    | composition cs =>
      obtain ⟨hlen, -⟩ := (wf_composition_iff cs).mp hwf
      simp only [EncodeSegment, Option.some.injEq] at hE
      refine Or.inr ⟨cs,
        cs.map fun c => (((m.insert (Segment.composition cs).Fingerprint
          sent.length).find c.Fingerprint).getD 0), rfl, hlen, ?_, ?_⟩
      · rw [List.forall₂_map_right_iff]
        rw [List.forall₂_same]
        intro c hc
        have hne := ne_of_mem_composition hc
        have hfind : (m.insert (Segment.composition cs).Fingerprint
            sent.length).find c.Fingerprint = m.find c := by
          simp only [SegIdx.insert, SegIdx.find, Segment.Fingerprint]
          rw [if_neg (fun hcontra => hne hcontra.symm)]
        rw [hfind]
        obtain ⟨i, hi⟩ := Option.isSome_iff_exists.mp (hchildren cs rfl c hc)
        rw [hi]
        simp only [Option.getD_some]
        obtain ⟨hlt, hs⟩ := find_lt_of_agrees hagree hi
        exact ⟨hlt, by rw [List.getElem?_append_left hlt]; exact hs⟩
      · rw [← hE, encodeRefs_flatten]
        simp [Nat.mod_eq_of_lt hlen]
  refine ⟨by simp, agrees_insert s hagree hnone, ?_⟩
  have h1 : GoodStream (sent ++ [s]) 0 sent.length body := GoodStream_mono _ _ _ hstream
  have h2 := GoodStream_snoc sent.length 0 body bs s b h1
    (by rw [Nat.zero_add, List.getElem?_concat_length]) (by rw [Nat.zero_add]; exact hchunk)
  simpa using h2

mutual
/-- Invariant preservation of the subsegment loop over the post-order
subsegment list of one segment; all children of a composition input end up
in the table. -/
theorem encodeSubsegs_rec_seg : ∀ (s : Segment), Segment.wf s = true →
    ∀ (m : SegIdx) (idx : Nat) (body : List Nat) (sent : List Segment) (m' : SegIdx)
      (idx' : Nat) (body' : List Nat) (sent' : List Segment),
    EncInv m idx body sent →
    encodeSubsegs (RecursiveSubsegments s) m idx body sent = some (m', idx', body', sent') →
    EncInv m' idx' body' sent' ∧ (∃ ext, sent' = sent ++ ext) ∧
      ∀ cs, s = .composition cs → ∀ c ∈ cs, (SegIdx.find m' c).isSome = true
  | .nilSeg => fun hwf => absurd hwf (by simp [Segment.wf])
  | .literal ifaces => by
      intro hwf m idx body sent m' idx' body' sent' hinv h
      simp only [RecursiveSubsegments, encodeSubsegs, Option.some.injEq,
        Prod.mk.injEq] at h
      obtain ⟨h1, h2, h3, h4⟩ := h
      subst h1; subst h2; subst h3; subst h4
      exact ⟨hinv, ⟨[], by simp⟩, fun cs hcs => by cases hcs⟩
  | .composition cs => by
      intro hwf m idx body sent m' idx' body' sent' hinv h
      obtain ⟨-, hwl⟩ := (wf_composition_iff cs).mp hwf
      rw [show RecursiveSubsegments (.composition cs) = subsegsList cs from rfl] at h
      obtain ⟨hinv', hext, hmem⟩ :=
        encodeSubsegs_rec_list cs hwl m idx body sent m' idx' body' sent' hinv h
      refine ⟨hinv', hext, ?_⟩
      intro cs' hcs' c hc
      injection hcs' with hcs'
      subst hcs'
      exact hmem c hc

/-- Invariant preservation of the subsegment loop over the flattened
post-order list of a child list; every listed segment ends up in the
table. -/
theorem encodeSubsegs_rec_list : ∀ (L : List Segment), Segment.wfList L = true →
    ∀ (m : SegIdx) (idx : Nat) (body : List Nat) (sent : List Segment) (m' : SegIdx)
      (idx' : Nat) (body' : List Nat) (sent' : List Segment),
    EncInv m idx body sent →
    encodeSubsegs (subsegsList L) m idx body sent = some (m', idx', body', sent') →
    EncInv m' idx' body' sent' ∧ (∃ ext, sent' = sent ++ ext) ∧
      ∀ c ∈ L, (SegIdx.find m' c).isSome = true
  | [] => by
      intro _ m idx body sent m' idx' body' sent' hinv h
      simp only [subsegsList, encodeSubsegs, Option.some.injEq, Prod.mk.injEq] at h
      obtain ⟨h1, h2, h3, h4⟩ := h
      subst h1; subst h2; subst h3; subst h4
      exact ⟨hinv, ⟨[], by simp⟩, by simp⟩
  | s :: rest => by
      intro hwl m idx body sent m' idx' body' sent' hinv h
      obtain ⟨hwfs, hwfr⟩ := (wfList_cons_iff s rest).mp hwl
      rw [show subsegsList (s :: rest) =
            RecursiveSubsegments s ++ ([s] ++ subsegsList rest) from by
          simp [subsegsList, List.append_assoc]] at h
      rw [encodeSubsegs_append] at h
      split at h
      · exact absurd h (by simp)
      rename_i m1 idx1 body1 sent1 heq1
      obtain ⟨hinv1, ⟨ext1, hext1⟩, hchild1⟩ :=
        encodeSubsegs_rec_seg s hwfs m idx body sent m1 idx1 body1 sent1 hinv heq1
      rw [show ([s] ++ subsegsList rest) = s :: subsegsList rest from rfl] at h
      simp only [encodeSubsegs] at h
      by_cases hf : (SegIdx.find m1 s.Fingerprint).isSome = true
      · rw [if_pos hf] at h
        obtain ⟨hinv2, ⟨ext2, hext2⟩, hmem2⟩ :=
          encodeSubsegs_rec_list rest hwfr m1 idx1 body1 sent1 m' idx' body' sent' hinv1 h
        refine ⟨hinv2, ⟨ext1 ++ ext2, by rw [hext2, hext1, List.append_assoc]⟩, ?_⟩
        intro c hc
        rcases List.mem_cons.mp hc with hceq | hcr
        · subst hceq
          obtain ⟨i, hi⟩ := Option.isSome_iff_exists.mp hf
          have hm := find_mono_of_agrees hinv1.2.1 hinv2.2.1 hext2 hi
          rw [Option.isSome_iff_exists]
          exact ⟨i, hm⟩
        · exact hmem2 c hcr
      · rw [if_neg hf] at h
        split at h
        · exact absurd h (by simp)
        rename_i bs heqE
        have hnone : SegIdx.find m1 s.Fingerprint = none := by
          cases hfe : SegIdx.find m1 s.Fingerprint with
          | none => rfl
          | some i => exact absurd (by simp [hfe]) hf
        have hinv2 := emit_step hinv1 s false hwfs hnone
          (fun cs hcs c hc => hchild1 cs hcs c hc) heqE
        obtain ⟨hinv3, ⟨ext3, hext3⟩, hmem3⟩ :=
          encodeSubsegs_rec_list rest hwfr _ _ _ _ m' idx' body' sent' hinv2 h
        refine ⟨hinv3, ⟨ext1 ++ ([s] ++ ext3), by
          rw [hext3, hext1]; simp [List.append_assoc]⟩, ?_⟩
        intro c hc
        rcases List.mem_cons.mp hc with hceq | hcr
        · subst hceq
          have hi : SegIdx.find (m1.insert c.Fingerprint idx1) c = some idx1 := by
            simp [SegIdx.insert, SegIdx.find, Segment.Fingerprint]
          have hm := find_mono_of_agrees hinv2.2.1 hinv3.2.1 hext3 hi
          rw [Option.isSome_iff_exists]
          exact ⟨idx1, hm⟩
        · exact hmem3 c hcr
end

/-- Invariant preservation of the outer loop of `EncodeSegments` for empty
`oldsegs` (where the seen-before wrapper branch is unreachable without a
panic). -/
theorem encodeTops_inv : ∀ (ns : List Segment), Segment.wfList ns = true →
    ∀ (m : SegIdx) (idx : Nat) (body : List Nat) (sent : List Segment) (m' : SegIdx)
      (idx' : Nat) (body' : List Nat) (sent' : List Segment),
    EncInv m idx body sent →
    encodeTops [] ns m idx body sent = some (m', idx', body', sent') →
    EncInv m' idx' body' sent' := by
  intro ns
  induction ns with
  | nil =>
    intro _ m idx body sent m' idx' body' sent' hinv h
    simp only [encodeTops, Option.some.injEq, Prod.mk.injEq] at h
    obtain ⟨h1, h2, h3, h4⟩ := h
    subst h1; subst h2; subst h3; subst h4
    exact hinv
  | cons newseg rest ih =>
    intro hwl m idx body sent m' idx' body' sent' hinv h
    obtain ⟨hwfs, hwfr⟩ := (wfList_cons_iff newseg rest).mp hwl
    simp only [encodeTops] at h
    split at h
    · exact absurd h (by simp)
    rename_i m1 idx1 body1 sent1 heq1
    obtain ⟨hinv1, -, hchild1⟩ :=
      encodeSubsegs_rec_seg newseg hwfs m idx body sent m1 idx1 body1 sent1 hinv heq1
    split at h
    · rename_i hfnone
      split at h
      · exact absurd h (by simp)
      rename_i bs heqE
      have hinv2 := emit_step hinv1 newseg true hwfs hfnone
        (fun cs hcs c hc => hchild1 cs hcs c hc) heqE
      exact ih hwfr _ _ _ _ m' idx' body' sent' hinv2 h
    · rename_i i hfsome
      split at h
      · exact absurd h (by simp)
      · rename_i oldseg holdseg
        exact absurd holdseg (by simp)

/-- Decoding an encoded interface list returns the original interfaces:
the reads at offsets `16k, 16k+8, ...` find the big-endian images put
there by `EncodeInterfaces`. -/
theorem decodeInterfacesFrom_encode : ∀ (ifaces : List PathInterface) (pre rest : List Nat)
    (k : Nat), pre.length = 16 * k →
    (∀ p ∈ ifaces, p.id < 2 ^ 64 ∧ p.ia < 2 ^ 64) →
    decodeInterfacesFrom (pre ++ (EncodeInterfaces ifaces ++ rest)) k ifaces.length =
      some ifaces := by
  intro ifaces
  induction ifaces with
  | nil => intro pre rest k hpre hb; rfl
  | cons p ps ih =>
    intro pre rest k hpre hb
    have hid := (hb p (List.mem_cons_self p ps)).1
    have hia := (hb p (List.mem_cons_self p ps)).2
    have hsplit : pre ++ (EncodeInterfaces (p :: ps) ++ rest) =
        pre ++ (be64 p.id ++ (be64 p.ia ++ (EncodeInterfaces ps ++ rest))) := by
      simp [EncodeInterfaces, List.append_assoc]
    have e1 : readU64 (pre ++ (EncodeInterfaces (p :: ps) ++ rest)) (k * 16) =
        some p.id := by
      rw [hsplit, show k * 16 = pre.length + 0 from by omega, readU64_append,
        readU64_be64, Nat.mod_eq_of_lt hid]
    have e2 : readU64 (pre ++ (EncodeInterfaces (p :: ps) ++ rest)) (k * 16 + 8) =
        some p.ia := by
      rw [hsplit, show k * 16 + 8 = pre.length + 8 from by omega, readU64_append,
        show (8 : Nat) = (be64 p.id).length + 0 from by simp [be64], readU64_append,
        readU64_be64, Nat.mod_eq_of_lt hia]
    have e3 : decodeInterfacesFrom (pre ++ (EncodeInterfaces (p :: ps) ++ rest)) (k + 1)
        ps.length = some ps := by
      have heq : pre ++ (EncodeInterfaces (p :: ps) ++ rest) =
          (pre ++ be64 p.id ++ be64 p.ia) ++ (EncodeInterfaces ps ++ rest) := by
        simp [EncodeInterfaces, List.append_assoc]
      rw [heq]
      exact ih (pre ++ be64 p.id ++ be64 p.ia) rest (k + 1)
        (by simp [be64]; omega) (fun q hq => hb q (List.mem_cons_of_mem p hq))
    show decodeInterfacesFrom _ k (ps.length + 1) = _
    simp only [decodeInterfacesFrom, e1, e2, e3]

/-- Resolving an encoded reference payload returns the original children:
each 16-bit index read back is the position of the child in `fin`, already
populated in the decoder's slice. -/
theorem decodeRefs_good : ∀ {fin arr : List Segment} {j : Nat}
    (cs : List Segment) (idxs : List Nat) (pre rest : List Nat) (k : Nat),
    List.Forall₂ (fun c i => i < j ∧ fin[i]? = some c) cs idxs →
    pre.length = 4 + 2 * k →
    j ≤ arr.length → arr.length = fin.length → fin.length < 65536 →
    (∀ t, t < j → arr[t]? = fin[t]?) →
    decodeRefs [] arr (pre ++ ((idxs.map be16).flatten ++ rest)) k cs.length = .ok cs := by
  intro fin arr j cs idxs pre rest k hfa
  induction hfa generalizing pre k with
  | nil => intro hpre hj harr hfit hagree; rfl
  | @cons c i cs1 idxs1 hci hrest ihr =>
    intro hpre hj harr hfit hagree
    obtain ⟨hib, hfinc⟩ := hci
    have hb16 : ((i :: idxs1).map be16).flatten ++ rest =
        be16 i ++ ((idxs1.map be16).flatten ++ rest) := by
      simp [List.append_assoc]
    have e1 : readU16 (pre ++ (((i :: idxs1).map be16).flatten ++ rest)) (4 + k * 2) =
        some i := by
      rw [hb16, show 4 + k * 2 = pre.length + 0 from by omega, readU16_append,
        readU16_be16, Nat.mod_eq_of_lt (by omega)]
    have e3 : decodeRefs [] arr (pre ++ (((i :: idxs1).map be16).flatten ++ rest))
        (k + 1) cs1.length = .ok cs1 := by
      have heq : pre ++ (((i :: idxs1).map be16).flatten ++ rest) =
          (pre ++ be16 i) ++ ((idxs1.map be16).flatten ++ rest) := by
        simp [List.append_assoc]
      rw [heq]
      exact ihr (pre ++ be16 i) (k + 1) (by simp [be16]; omega) hj harr hfit hagree
    have hget : arr.getD (i - List.length ([] : List Segment)) Segment.nilSeg = c := by
      simp only [List.length_nil, Nat.sub_zero, List.getD_eq_getElem?_getD]
      rw [hagree i (by omega), hfinc]
      rfl
    show decodeRefs [] arr _ k (cs1.length + 1) = _
    simp only [decodeRefs, e1]
    rw [if_neg (by simp), if_pos (by simp; omega)]
    simp only [e3, hget]

/-- The record loop of the decoder consumes a good stream and reproduces
the corresponding segments of `fin` in its slice. -/
theorem decodeLoop_good : ∀ (n : Nat) (fin : List Segment), fin.length < 65536 →
    ∀ (j : Nat) (stream : List Nat) (arr acc : List Segment),
    GoodStream fin j n stream →
    arr.length = fin.length →
    (∀ k, k < j → arr[k]? = fin[k]?) →
    ∃ arr' acc', decodeLoop [] stream j arr acc n = .ok arr' acc' ∧
      arr'.length = arr.length ∧ (∀ k, k < j + n → arr'[k]? = fin[k]?) ∧
      (∀ k, j + n ≤ k → arr'[k]? = arr[k]?) := by
  intro n
  induction n with
  | zero =>
    intro fin hfit j stream arr acc hstream harr hagree
    exact ⟨arr, acc, rfl, rfl, fun k hk => hagree k (by omega), fun k _ => rfl⟩
  | succ n ih =>
    intro fin hfit j stream arr acc hstream harr hagree
    obtain ⟨chunk, rest, seg, b, hsplit, hfin, hchunk, hrest⟩ := hstream
    have hjlt : j < fin.length := by
      by_contra hge
      rw [List.getElem?_eq_none (by omega)] at hfin
      exact absurd hfin (by simp)
    rcases hchunk with ⟨ifaces, hseg, hlen, hids, hchunkeq⟩ |
      ⟨cs, idxs, hseg, hlen, hfa, hchunkeq⟩
    · -- Literal record
      subst hseg
      have hbs : stream = (if b then 2 else 0) :: ifaces.length :: 0 :: 0 ::
          (EncodeInterfaces ifaces ++ rest) := by
        rw [hsplit, hchunkeq]; simp
      have hf2 : (if b then (2 : Nat) else 0) % 2 = 0 := by cases b <;> simp
      have e0 : stream[0]? = some (if b then 2 else 0) := by rw [hbs]; rfl
      have e1 : stream[1]? = some ifaces.length := by rw [hbs]; rfl
      have e2 : readU16 stream 2 = some 0 := by rw [hbs]; exact readU16_zeros _ _ _
      have eIf : DecodeInterfaces (stream.drop 4) ifaces.length = some ifaces := by
        rw [hbs]
        show DecodeInterfaces (EncodeInterfaces ifaces ++ rest) ifaces.length = some ifaces
        have := decodeInterfacesFrom_encode ifaces [] rest 0 (by simp) hids
        simpa using this
      have eDrop : dropN stream (4 + ifaces.length * 16 + 0) = some rest := by
        rw [hbs, show 4 + ifaces.length * 16 + 0 =
          ((if b then (2 : Nat) else 0) :: ifaces.length :: 0 :: 0 ::
            EncodeInterfaces ifaces : List Nat).length from by
            simp [length_EncodeInterfaces]; omega]
        exact dropN_append _ _
      have harr1 : (arr.set j (FromInterfaces ifaces)).length = fin.length := by
        rw [List.length_set]; exact harr
      have hagree1 : ∀ k, k < j + 1 → (arr.set j (FromInterfaces ifaces))[k]? = fin[k]? := by
        intro k hk
        rcases Nat.lt_or_ge k j with hkj | hkj
        · rw [List.getElem?_set_ne (by omega)]; exact hagree k hkj
        · have hkeq : k = j := by omega
          subst hkeq
          rw [List.getElem?_set_eq_of_lt _ (by omega), hfin]
          rfl
      obtain ⟨arr', acc', heqL, hlen', hagree', hpres'⟩ :=
        ih fin hfit (j + 1) rest (arr.set j (FromInterfaces ifaces))
          (if ((if b then (2 : Nat) else 0) / 2 % 2 == 1) = true
            then acc ++ [FromInterfaces ifaces] else acc) hrest harr1 hagree1
      refine ⟨arr', acc', ?_, ?_, ?_, ?_⟩
      · have hstep : decodeLoop [] stream j arr acc (n + 1) =
            decodeLoop [] rest (j + 1) (arr.set j (FromInterfaces ifaces))
              (if ((if b then (2 : Nat) else 0) / 2 % 2 == 1) = true
                then acc ++ [FromInterfaces ifaces] else acc) n := by
          simp only [decodeLoop, e0, e1, e2]
          rw [if_pos hf2]
          simp only [eIf, eDrop]
        rw [hstep]; exact heqL
      · rw [hlen', List.length_set]
      · intro k hk; exact hagree' k (by omega)
      · intro k hk
        rw [hpres' k (by omega), List.getElem?_set_ne (by omega)]
    · -- Composition record
      subst hseg
      have hbs : stream = ((if b then 2 else 0) + 1) :: cs.length :: 0 :: 0 ::
          ((idxs.map be16).flatten ++ rest) := by
        rw [hsplit, hchunkeq]; simp
      have hf2 : ¬ ((if b then (2 : Nat) else 0) + 1) % 2 = 0 := by cases b <;> simp
      have e0 : stream[0]? = some ((if b then 2 else 0) + 1) := by rw [hbs]; rfl
      have e1 : stream[1]? = some cs.length := by rw [hbs]; rfl
      have e2 : readU16 stream 2 = some 0 := by rw [hbs]; exact readU16_zeros _ _ _
      have eRefs : decodeRefs [] arr stream 0 cs.length = .ok cs := by
        rw [hbs]
        show decodeRefs [] arr
          ([(if b then 2 else 0) + 1, cs.length, 0, 0] ++
            ((idxs.map be16).flatten ++ rest)) 0 cs.length = .ok cs
        exact decodeRefs_good cs idxs [(if b then 2 else 0) + 1, cs.length, 0, 0] rest 0
          hfa (by simp) (by omega) harr hfit hagree
      have eDrop : dropN stream (4 + cs.length * 2 + 0) = some rest := by
        rw [hbs, show 4 + cs.length * 2 + 0 =
          (((if b then (2 : Nat) else 0) + 1) :: cs.length :: 0 :: 0 ::
            (idxs.map be16).flatten : List Nat).length from by
            simp only [List.length_cons, length_flatten_be16, hfa.length_eq]; omega]
        exact dropN_append _ _
      have harr1 : (arr.set j (FromSegments cs)).length = fin.length := by
        rw [List.length_set]; exact harr
      have hagree1 : ∀ k, k < j + 1 → (arr.set j (FromSegments cs))[k]? = fin[k]? := by
        intro k hk
        rcases Nat.lt_or_ge k j with hkj | hkj
        · rw [List.getElem?_set_ne (by omega)]; exact hagree k hkj
        · have hkeq : k = j := by omega
          subst hkeq
          rw [List.getElem?_set_eq_of_lt _ (by omega), hfin]
          rfl
      obtain ⟨arr', acc', heqL, hlen', hagree', hpres'⟩ :=
        ih fin hfit (j + 1) rest (arr.set j (FromSegments cs))
          (if (((if b then (2 : Nat) else 0) + 1) / 2 % 2 == 1) = true
            then acc ++ [FromSegments cs] else acc) hrest harr1 hagree1
      refine ⟨arr', acc', ?_, ?_, ?_, ?_⟩
      · have hstep : decodeLoop [] stream j arr acc (n + 1) =
            decodeLoop [] rest (j + 1) (arr.set j (FromSegments cs))
              (if (((if b then (2 : Nat) else 0) + 1) / 2 % 2 == 1) = true
                then acc ++ [FromSegments cs] else acc) n := by
          simp only [decodeLoop, e0, e1, e2]
          rw [if_neg hf2]
          simp only [eRefs, eDrop]
        rw [hstep]; exact heqL
      · rw [hlen', List.length_set]
      · intro k hk; exact hagree' k (by omega)
      · intro k hk
        rw [hpres' k (by omega), List.getElem?_set_ne (by omega)]

/-- Shape of every successful `EncodeSegments` result: the 20-byte header
— reserved byte, `hdrlen` 20, the 16-bit image of the final running index
`len(oldsegs) + len(sentsegs)`, both addresses — followed by the record
body. -/
theorem encodeSegments_shape (ns os : List Segment) (srcIA dstIA : Nat) (B : List Nat)
    (S : List Segment) (h : EncodeSegments ns os srcIA dstIA = some (B, S)) :
    ∃ body, B = [0, 20] ++ be16 (os.length + S.length) ++ be64 srcIA ++ be64 dstIA ++ body := by
  simp only [EncodeSegments] at h
  split at h
  · exact absurd h (by simp)
  rename_i m1 idx1 body1 sent1 hs
  have hidx := encodeTops_idx _ _ _ _ _ _ _ _ _ _ hs
  simp only [List.length_nil, Nat.add_zero] at hidx
  simp only [Option.some.injEq, Prod.mk.injEq] at h
  obtain ⟨hB, hS⟩ := h
  subst hS
  exact ⟨body1, by rw [← hB, hidx]⟩

/-- Relates the record loop to the accepted-bits extraction: on success
the accepted accumulator extends by exactly those processed records whose
accepted flag bit is set, in record order. -/
theorem decodeLoop_accepted : ∀ (n : Nat) (oldsegs : List Segment) (bs : List Nat) (i : Nat)
    (arr acc0 arr' acc' : List Segment),
    i + n = arr.length →
    decodeLoop oldsegs bs i arr acc0 n = .ok arr' acc' →
    ∃ bits : List Bool, acceptedBits bs n = some bits ∧
      arr'.length = arr.length ∧
      (∀ k, k < i → arr'[k]? = arr[k]?) ∧
      acc' = acc0 ++ (((arr'.drop i).zip bits).filter (fun p => p.2)).map Prod.fst := by
  intro n
  induction n with
  | zero =>
    intro oldsegs bs i arr acc0 arr' acc' hi h
    simp only [decodeLoop, LoopRes.ok.injEq] at h
    obtain ⟨h1, h2⟩ := h
    subst h1
    subst h2
    refine ⟨[], rfl, rfl, fun k _ => rfl, ?_⟩
    rw [List.drop_of_length_le (by omega)]
    simp
  | succ n ih =>
    intro oldsegs bs i arr acc0 arr' acc' hi h
    simp only [decodeLoop] at h
    split at h
    case h_2 => exact absurd h (by simp)
    rename_i flags seglen optlen h0 h1 h2
    split at h
    · -- literal record
      rename_i hty
      split at h
      · exact absurd h (by simp)
      rename_i ifaces hIf
      split at h
      · exact absurd h (by simp)
      rename_i bs1 hDrop
      have harr : (i + 1) + n = (arr.set i (FromInterfaces ifaces)).length := by
        rw [List.length_set]; omega
      obtain ⟨bits, hbits, hlen, hpres, hacc⟩ := ih _ _ _ _ _ _ _ harr h
      refine ⟨(flags / 2 % 2 == 1) :: bits, ?_, ?_, ?_, ?_⟩
      · simp [acceptedBits, h0, h1, h2, hty, hDrop, hbits]
      · rw [hlen, List.length_set]
      · intro k hk
        rw [hpres k (by omega), List.getElem?_set_ne (by omega)]
      · have hi' : arr'[i]? = some (FromInterfaces ifaces) := by
          rw [hpres i (by omega)]
          exact List.getElem?_set_eq_of_lt _ (by omega)
        have hdrop : arr'.drop i = FromInterfaces ifaces :: arr'.drop (i + 1) := by
          rw [List.drop_eq_getElem_cons (l := arr') (by omega)]
          have := hi'
          rw [List.getElem?_eq_getElem (by omega)] at this
          simp only [Option.some.injEq] at this
          rw [this]
        rw [hacc, hdrop]
        cases hb : (flags / 2 % 2 == 1) <;>
          simp [hb, List.zip, List.filter, List.append_assoc]
    · -- composition record
      rename_i hty
      split at h
      · exact absurd h (by simp)
      · exact absurd h (by simp)
      rename_i subsegs hRefs
      split at h
      · exact absurd h (by simp)
      rename_i bs1 hDrop
      have harr : (i + 1) + n = (arr.set i (FromSegments subsegs)).length := by
        rw [List.length_set]; omega
      obtain ⟨bits, hbits, hlen, hpres, hacc⟩ := ih _ _ _ _ _ _ _ harr h
      refine ⟨(flags / 2 % 2 == 1) :: bits, ?_, ?_, ?_, ?_⟩
      · simp [acceptedBits, h0, h1, h2, hty, hDrop, hbits]
      · rw [hlen, List.length_set]
      · intro k hk
        rw [hpres k (by omega), List.getElem?_set_ne (by omega)]
      · have hi' : arr'[i]? = some (FromSegments subsegs) := by
          rw [hpres i (by omega)]
          exact List.getElem?_set_eq_of_lt _ (by omega)
        have hdrop : arr'.drop i = FromSegments subsegs :: arr'.drop (i + 1) := by
          rw [List.drop_eq_getElem_cons (l := arr') (by omega)]
          have := hi'
          rw [List.getElem?_eq_getElem (by omega)] at this
          simp only [Option.some.injEq] at this
          rw [this]
        rw [hacc, hdrop]
        cases hb : (flags / 2 % 2 == 1) <;>
          simp [hb, List.zip, List.filter, List.append_assoc]

/-- The accepted-bits extraction returns one bit per record. -/
theorem acceptedBits_length : ∀ (n : Nat) (bs : List Nat) (bits : List Bool),
    acceptedBits bs n = some bits → bits.length = n := by
  intro n
  induction n with
  | zero =>
    intro bs bits h
    simp only [acceptedBits, Option.some.injEq] at h
    simp [← h]
  | succ n ih =>
    intro bs bits h
    simp only [acceptedBits] at h
    split at h
    case h_2 => exact absurd h (by simp)
    split at h
    · exact absurd h (by simp)
    split at h
    · exact absurd h (by simp)
    rename_i rest hrest
    simp only [Option.some.injEq] at h
    rw [← h]
    simp [ih _ _ hrest]

/-! ## Claim theorems -/

/-- C6: with `oldSegments` empty and `newSegments` a single Composition of
`Literal({id:1,ia:11})` and `Literal({id:2,ia:22})`, `EncodeSegments`
emits exactly three records — the first Literal (flags byte 0:
type=Literal, accepted=false), the second Literal (flags byte 0), then the
Composition referencing indices 0 and 1 (flags byte 3: type=Composition,
accepted=true) — writes `numsegs = 3` into header bytes 2..4, and
`DecodeSegments` of that buffer with empty `oldSegments` returns the
three-element `newSegments` list and `acceptedSegments` containing exactly
the Composition. -/
theorem encode_decode_two_literal_scenario :
    EncodeSegments [.composition [.literal [⟨1, 11⟩], .literal [⟨2, 22⟩]]] [] 5 6 =
      some ([0, 20, 0, 3, 0, 0, 0, 0, 0, 0, 0, 5, 0, 0, 0, 0, 0, 0, 0, 6] ++
          ([0, 1, 0, 0] ++ [0, 0, 0, 0, 0, 0, 0, 1] ++ [0, 0, 0, 0, 0, 0, 0, 11]) ++
          ([0, 1, 0, 0] ++ [0, 0, 0, 0, 0, 0, 0, 2] ++ [0, 0, 0, 0, 0, 0, 0, 22]) ++
          [3, 2, 0, 0, 0, 0, 0, 1],
        [.literal [⟨1, 11⟩], .literal [⟨2, 22⟩],
          .composition [.literal [⟨1, 11⟩], .literal [⟨2, 22⟩]]]) ∧
    readU16 ([0, 20, 0, 3, 0, 0, 0, 0, 0, 0, 0, 5, 0, 0, 0, 0, 0, 0, 0, 6] ++
          ([0, 1, 0, 0] ++ [0, 0, 0, 0, 0, 0, 0, 1] ++ [0, 0, 0, 0, 0, 0, 0, 11]) ++
          ([0, 1, 0, 0] ++ [0, 0, 0, 0, 0, 0, 0, 2] ++ [0, 0, 0, 0, 0, 0, 0, 22]) ++
          [3, 2, 0, 0, 0, 0, 0, 1]) 2 = some 3 ∧
    DecodeSegments ([0, 20, 0, 3, 0, 0, 0, 0, 0, 0, 0, 5, 0, 0, 0, 0, 0, 0, 0, 6] ++
          ([0, 1, 0, 0] ++ [0, 0, 0, 0, 0, 0, 0, 1] ++ [0, 0, 0, 0, 0, 0, 0, 11]) ++
          ([0, 1, 0, 0] ++ [0, 0, 0, 0, 0, 0, 0, 2] ++ [0, 0, 0, 0, 0, 0, 0, 22]) ++
          [3, 2, 0, 0, 0, 0, 0, 1]) [] =
      .ok [.literal [⟨1, 11⟩], .literal [⟨2, 22⟩],
          .composition [.literal [⟨1, 11⟩], .literal [⟨2, 22⟩]]]
        [.composition [.literal [⟨1, 11⟩], .literal [⟨2, 22⟩]]] 5 6 := by
  refine ⟨by decide, by decide, by decide⟩

/-- C2 (code bug): a Composition record whose two-byte index equals the
record's own position in the combined index space — a self/forward
reference that the claim requires `DecodeSegments` to reject with the
invalid-reference error — is instead resolved against the not yet
populated slot of the pre-allocated `newsegs` slice: with empty
`oldSegments` and a single Composition record referencing index 0, the
call returns successfully and the decoded Composition contains the nil
zero value as its only child. -/
theorem decode_forward_reference_not_rejected :
    DecodeSegments ([0, 20, 0, 1, 0, 0, 0, 0, 0, 0, 0, 7, 0, 0, 0, 0, 0, 0, 0, 9] ++
        [1, 1, 0, 0, 0, 0]) [] =
      .ok [.composition [.nilSeg]] [] 7 9 := by decide

/-- C4 (code bug): encoding the same segment twice in one call panics
instead of emitting a wrapper record: with `oldSegments = []` and
`newSegments = [a, a]` for `a = Literal([{id:1,ia:11}])`, the second
iteration finds the fingerprint of `a` in the index table at index 0 and
evaluates `oldsegs[0]` on the empty `oldsegs` slice — an out-of-range
index, modelled by `none`. -/
theorem encode_duplicate_toplevel_panics :
    EncodeSegments [.literal [⟨1, 11⟩], .literal [⟨1, 11⟩]] [] 0 0 = none := by decide

/-- C3 (counterexample): in the re-announce scenario — `oldSegments`
containing exactly the previously sent Composition of two Literals and
`newSegments` that same Composition — `EncodeSegments` does not emit a
single wrapper record: the emitted buffer is 66 bytes (20-byte header plus
two 20-byte Literal records plus the 6-byte wrapper) and `sentSegments`
has three elements, not one. -/
theorem reannounce_emits_single_record_cex :
    (EncodeSegments [.composition [.literal [⟨1, 11⟩], .literal [⟨2, 22⟩]]]
        [.composition [.literal [⟨1, 11⟩], .literal [⟨2, 22⟩]]] 9 9).map
        (fun r => (r.1.length, r.2.length)) =
      some (66, 3) := by decide

/-- C3 (amended): in the re-announce scenario the index table is seeded
only with the top-level entries of `oldSegments`, so the Composition's two
Literal children are re-encoded in full: `EncodeSegments` emits three
records — both Literals as unaccepted full records (consuming indices 1
and 2) followed by the single-child Composition wrapper with
`accepted=true` whose one subsegment index is 0 — and writes
`numsegs = 4` (final running index) into the header. -/
theorem reannounce_reencodes_literal_children :
    EncodeSegments [.composition [.literal [⟨1, 11⟩], .literal [⟨2, 22⟩]]]
        [.composition [.literal [⟨1, 11⟩], .literal [⟨2, 22⟩]]] 9 9 =
      some ([0, 20, 0, 4, 0, 0, 0, 0, 0, 0, 0, 9, 0, 0, 0, 0, 0, 0, 0, 9] ++
          ([0, 1, 0, 0] ++ [0, 0, 0, 0, 0, 0, 0, 1] ++ [0, 0, 0, 0, 0, 0, 0, 11]) ++
          ([0, 1, 0, 0] ++ [0, 0, 0, 0, 0, 0, 0, 2] ++ [0, 0, 0, 0, 0, 0, 0, 22]) ++
          [3, 1, 0, 0, 0, 0],
        [.literal [⟨1, 11⟩], .literal [⟨2, 22⟩],
          FromSegments [.composition [.literal [⟨1, 11⟩], .literal [⟨2, 22⟩]]]]) := by
  decide

/-- C5 (counterexample): `DecodeSegments` of the empty buffer does not
return a malformed-header error value (the code defines no such error): it
indexes past the end of the buffer, a Go runtime panic. -/
theorem decode_empty_buffer_panics :
    DecodeSegments [] [] = .panic := by decide

/-- C5 (amended): `DecodeSegments` performs no header bounds checking and
the code defines no malformed-header error: every buffer shorter than the
20 bytes read by the header parse makes one of the header reads index out
of range, a Go runtime panic, for every `oldSegments` list. -/
theorem decode_short_buffer_panics (bytes : List Nat) (oldsegs : List Segment)
    (h : bytes.length < 20) :
    DecodeSegments bytes oldsegs = .panic := by
  have h12 : readU64 bytes 12 = none := by
    simp only [readU64, readBE, ite_eq_right_iff]
    omega
  cases h1 : bytes[1]? <;> cases h2 : readU16 bytes 2 <;> cases h3 : readU64 bytes 4 <;>
    simp [DecodeSegments, h1, h2, h3, h12]

/-- Witness for the amended C5 theorem at the four-byte buffer. -/
theorem decode_short_buffer_panics_witness :
    ([0, 20, 0, 0] : List Nat).length < 20 ∧ DecodeSegments [0, 20, 0, 0] [] = .panic :=
  ⟨by decide, decode_short_buffer_panics [0, 20, 0, 0] [] (by decide)⟩

/-- C1 (counterexample): the round trip fails for a non-empty
`oldSegments` list: encoding one fresh Literal against a one-element cache
writes `numsegs = 2` (the final running index) but emits only one record,
so decoding the produced buffer with the same `oldSegments` reads a second
record past the end of the buffer and panics instead of succeeding. -/
theorem roundtrip_nonempty_oldsegs_cex :
    EncodeSegments [.literal [⟨1, 11⟩]] [.literal [⟨2, 22⟩]] 0 0 =
      some ([0, 20, 0, 2, 0, 0, 0, 0, 0, 0, 0, 0, 0, 0, 0, 0, 0, 0, 0, 0] ++
          [2, 1, 0, 0] ++ [0, 0, 0, 0, 0, 0, 0, 1] ++ [0, 0, 0, 0, 0, 0, 0, 11],
        [.literal [⟨1, 11⟩]]) ∧
    DecodeSegments ([0, 20, 0, 2, 0, 0, 0, 0, 0, 0, 0, 0, 0, 0, 0, 0, 0, 0, 0, 0] ++
        [2, 1, 0, 0] ++ [0, 0, 0, 0, 0, 0, 0, 1] ++ [0, 0, 0, 0, 0, 0, 0, 11])
      [.literal [⟨2, 22⟩]] = .panic := by
  refine ⟨by decide, by decide⟩

/-- C7: for every buffer that `DecodeSegments` decodes successfully, the
returned `acceptedSegments` list is exactly the subsequence, in record
order, of the returned `newSegments` list consisting of those records
whose accepted flag bit (bit 1 of the flags byte) is set — obtained by
zipping `newSegments` with the per-record accepted bits of the record
stream and keeping exactly the set ones. -/
theorem decode_accepted_filtering (bytes : List Nat)
    (oldsegs newsegs accsegs : List Segment) (srcIA dstIA : Nat)
    (h : DecodeSegments bytes oldsegs = .ok newsegs accsegs srcIA dstIA) :
    ∃ (hdrlen : Nat) (bits : List Bool), bytes[1]? = some hdrlen ∧
      acceptedBits (bytes.drop hdrlen) newsegs.length = some bits ∧
      bits.length = newsegs.length ∧
      accsegs = ((newsegs.zip bits).filter (fun p => p.2)).map Prod.fst := by
  simp only [DecodeSegments] at h
  split at h
  case h_2 => exact absurd h (by simp)
  rename_i hdrlen numsegs srcIA' dstIA' e1 e2 e3 e4
  split at h
  · exact absurd h (by simp)
  rename_i body eD
  split at h
  case h_2 => exact absurd h (by simp)
  case h_3 => exact absurd h (by simp)
  rename_i arr acc1 eL
  simp only [DecodeResult.ok.injEq] at h
  obtain ⟨hnew, hacc, -, -⟩ := h
  subst hnew
  subst hacc
  have hlenr : (0 : Nat) + numsegs = (List.replicate numsegs Segment.nilSeg).length := by
    simp
  obtain ⟨bits, hbits, hlen, -, haccs⟩ :=
    decodeLoop_accepted numsegs oldsegs body 0 (List.replicate numsegs .nilSeg) [] _ _ hlenr eL
  have hbody : body = bytes.drop hdrlen := by
    simp only [dropN] at eD
    split at eD
    · exact (Option.some.injEq _ _ ▸ eD).symm
    · exact absurd eD (by simp)
  have hnum : arr.length = numsegs := by
    rw [hlen, List.length_replicate]
  refine ⟨hdrlen, bits, e1, ?_, ?_, ?_⟩
  · rw [hnum, ← hbody]
    exact hbits
  · rw [acceptedBits_length numsegs body bits hbits, hnum]
  · simpa using haccs

/-- Witness for the C7 theorem: a two-record buffer whose first record is
unaccepted (flags byte 0) and whose second is accepted (flags byte 2). -/
theorem decode_accepted_filtering_witness :
    ∃ (hdrlen : Nat) (bits : List Bool),
      ([0, 20, 0, 2, 0, 0, 0, 0, 0, 0, 0, 1, 0, 0, 0, 0, 0, 0, 0, 2,
          0, 0, 0, 0, 2, 0, 0, 0] : List Nat)[1]? = some hdrlen ∧
      acceptedBits (([0, 20, 0, 2, 0, 0, 0, 0, 0, 0, 0, 1, 0, 0, 0, 0, 0, 0, 0, 2,
          0, 0, 0, 0, 2, 0, 0, 0] : List Nat).drop hdrlen)
        ([Segment.literal [], Segment.literal []] : List Segment).length = some bits ∧
      bits.length = ([Segment.literal [], Segment.literal []] : List Segment).length ∧
      ([Segment.literal []] : List Segment) =
        ((([Segment.literal [], Segment.literal []] : List Segment).zip bits).filter
          (fun p => p.2)).map Prod.fst :=
  decode_accepted_filtering
    [0, 20, 0, 2, 0, 0, 0, 0, 0, 0, 0, 1, 0, 0, 0, 0, 0, 0, 0, 2, 0, 0, 0, 0, 2, 0, 0, 0]
    [] [.literal [], .literal []] [.literal []] 1 2 (by decide)

/-- C1 (amended): round trip with empty `oldSegments`: for every list of
well-formed segments, whenever `EncodeSegments(ns, [], srcIA, dstIA)`
returns a buffer and a `sentSegments` list of fewer than 65536 records,
`DecodeSegments` of that buffer with empty `oldSegments` succeeds and
returns a `newSegments` list equal to `sentSegments` element by element
(structural equality coincides with fingerprint equality, the fingerprint
being injective). -/
theorem roundtrip_empty_oldsegs (ns : List Segment) (srcIA dstIA : Nat) (B : List Nat)
    (S : List Segment)
    (hwf : Segment.wfList ns = true)
    (henc : EncodeSegments ns [] srcIA dstIA = some (B, S))
    (hfit : S.length < 65536) :
    ∃ accsegs : List Segment,
      DecodeSegments B [] = .ok S accsegs (srcIA % 2 ^ 64) (dstIA % 2 ^ 64) := by
  simp only [EncodeSegments] at henc
  split at henc
  · exact absurd henc (by simp)
  rename_i mF idxF body sentF heqT
  simp only [Option.some.injEq, Prod.mk.injEq] at henc
  obtain ⟨hB, hS⟩ := henc
  subst hS
  have hinv0 : EncInv [] 0 [] ([] : List Segment) := by
    refine ⟨rfl, ?_, rfl⟩
    intro s i
    constructor
    · intro hfind; exact absurd hfind (by simp [SegIdx.find])
    · intro hg; exact absurd hg (by simp)
  have hinvF := encodeTops_inv ns hwf [] 0 [] [] mF idxF body sentF hinv0 heqT
  obtain ⟨hidxF, hagreeF, hstreamF⟩ := hinvF
  subst hidxF
  have hBc : B = 0 :: 20 :: (be16 sentF.length ++ (be64 srcIA ++ (be64 dstIA ++ body))) := by
    rw [← hB]; simp [List.append_assoc]
  have e1 : B[1]? = some 20 := by rw [hBc]; rfl
  have e2 : readU16 B 2 = some sentF.length := by
    rw [hBc, readU16_header, Nat.mod_eq_of_lt hfit]
  have e3 : readU64 B 4 = some (srcIA % 2 ^ 64) := by
    have hB4 : B = (0 :: 20 :: be16 sentF.length) ++
        (be64 srcIA ++ (be64 dstIA ++ body)) := by
      rw [hBc]; simp
    have h4 : (0 :: 20 :: be16 sentF.length : List Nat).length + 0 = 4 := by simp [be16]
    have hr := readU64_append (0 :: 20 :: be16 sentF.length)
      (be64 srcIA ++ (be64 dstIA ++ body)) 0
    rw [h4] at hr
    rw [hB4, hr, readU64_be64]
  have e4 : readU64 B 12 = some (dstIA % 2 ^ 64) := by
    have hB12 : B = ((0 :: 20 :: be16 sentF.length) ++ be64 srcIA) ++
        (be64 dstIA ++ body) := by
      rw [hBc]; simp [List.append_assoc]
    have h12 : ((0 :: 20 :: be16 sentF.length) ++ be64 srcIA : List Nat).length + 0 = 12 := by
      simp [be16, be64]
    have hr := readU64_append ((0 :: 20 :: be16 sentF.length) ++ be64 srcIA)
      (be64 dstIA ++ body) 0
    rw [h12] at hr
    rw [hB12, hr, readU64_be64]
  have e5 : dropN B 20 = some body := by
    have hB20 : B = (((0 :: 20 :: be16 sentF.length) ++ be64 srcIA) ++ be64 dstIA) ++
        body := by
      rw [hBc]; simp [List.append_assoc]
    have h20 : ((((0 :: 20 :: be16 sentF.length) ++ be64 srcIA) ++ be64 dstIA :
        List Nat)).length = 20 := by
      simp [be16, be64]
    have hr := dropN_append (((0 :: 20 :: be16 sentF.length) ++ be64 srcIA) ++ be64 dstIA)
      body
    rw [h20] at hr
    rw [hB20, hr]
  have harr0 : (List.replicate sentF.length Segment.nilSeg).length = sentF.length := by
    simp
  obtain ⟨arr', acc', heqL, hlen', hagree', hpres'⟩ :=
    decodeLoop_good sentF.length sentF hfit 0 body
      (List.replicate sentF.length .nilSeg) [] hstreamF harr0
      (fun k hk => absurd hk (by omega))
  have harrS : arr' = sentF := by
    apply List.ext_getElem?
    intro k
    rcases Nat.lt_or_ge k sentF.length with hk | hk
    · exact hagree' k (by omega)
    · rw [List.getElem?_eq_none (by rw [hlen', harr0]; omega),
        List.getElem?_eq_none (by omega)]
  refine ⟨acc', ?_⟩
  simp only [DecodeSegments, e1, e2, e3, e4, e5, heqL, harrS]

/-- Witness for the amended C1 theorem: one fresh Literal encoded against
the empty cache decodes back to itself. -/
theorem roundtrip_empty_oldsegs_witness :
    ∃ accsegs : List Segment,
      DecodeSegments ([0, 20, 0, 1, 0, 0, 0, 0, 0, 0, 0, 5, 0, 0, 0, 0, 0, 0, 0, 6] ++
          [2, 1, 0, 0] ++ [0, 0, 0, 0, 0, 0, 0, 1] ++ [0, 0, 0, 0, 0, 0, 0, 11]) [] =
        .ok [.literal [⟨1, 11⟩]] accsegs (5 % 2 ^ 64) (6 % 2 ^ 64) :=
  roundtrip_empty_oldsegs [.literal [⟨1, 11⟩]] 5 6
    ([0, 20, 0, 1, 0, 0, 0, 0, 0, 0, 0, 5, 0, 0, 0, 0, 0, 0, 0, 6] ++
      [2, 1, 0, 0] ++ [0, 0, 0, 0, 0, 0, 0, 1] ++ [0, 0, 0, 0, 0, 0, 0, 11])
    [.literal [⟨1, 11⟩]] (by decide) (by decide) (by decide)

/-- C8: every successful `EncodeSegments` call produces a buffer whose
byte 1 is the fixed header length 20, whose bytes 4..12 and 12..20 are the
big-endian 64-bit images of `srcIA` and `dstIA`, and whose `numsegs` field
at bytes 2..4 is the 16-bit image of the final running index, which equals
`len(oldSegments)` plus the number of records emitted (one record per
`sentSegments` entry). -/
theorem encode_header_layout (ns os : List Segment) (srcIA dstIA : Nat) (B : List Nat)
    (S : List Segment) (h : EncodeSegments ns os srcIA dstIA = some (B, S)) :
    (∃ body, B = [0, 20] ++ be16 (os.length + S.length) ++
        be64 srcIA ++ be64 dstIA ++ body) ∧
      readU16 B 2 = some ((os.length + S.length) % 65536) := by
  obtain ⟨body, hB⟩ := encodeSegments_shape ns os srcIA dstIA B S h
  refine ⟨⟨body, hB⟩, ?_⟩
  rw [hB]
  simp only [List.append_assoc, List.cons_append, List.nil_append]
  exact readU16_header _ _

/-- Witness for the C8 theorem: one fresh empty Literal against an empty
cache. -/
theorem encode_header_layout_witness :
    (∃ body,
        ([0, 20, 0, 1, 0, 0, 0, 0, 0, 0, 0, 3, 0, 0, 0, 0, 0, 0, 0, 4, 2, 0, 0, 0] :
            List Nat) =
          [0, 20] ++ be16 (List.length ([] : List Segment) +
              List.length [Segment.literal []]) ++ be64 3 ++ be64 4 ++ body) ∧
      readU16 [0, 20, 0, 1, 0, 0, 0, 0, 0, 0, 0, 3, 0, 0, 0, 0, 0, 0, 0, 4, 2, 0, 0, 0] 2 =
        some ((List.length ([] : List Segment) + List.length [Segment.literal []]) % 65536) :=
  encode_header_layout [.literal []] [] 3 4 _ [.literal []] (by decide)

/-- C9: when a Composition child's fingerprint is absent from the index
table, `EncodeSegment` silently writes the Go map zero value 0 as the
child's two index bytes (at payload offsets `4+2j` and `4+2j+1`): the call
still succeeds and no error is reported. -/
theorem encode_unknown_child_zero_index (cs : List Segment) (accepted : Bool) (m : SegIdx)
    (j : Nat) (c : Segment) (hc : cs[j]? = some c) (hm : m.find c.Fingerprint = none) :
    ∃ bs, EncodeSegment (.composition cs) accepted m = some bs ∧
      bs[4 + 2 * j]? = some 0 ∧ bs[4 + 2 * j + 1]? = some 0 := by
  have hr := encodeRefs_getElem cs m j c hc
  rw [hm] at hr
  simp only [Option.getD_none, Nat.zero_div, Nat.zero_mod] at hr
  refine ⟨_, rfl, ?_, ?_⟩
  · rw [show 4 + 2 * j = 2 * j + 1 + 1 + 1 + 1 by omega]
    simp only [List.cons_append, List.nil_append, List.getElem?_cons_succ]
    exact hr.1
  · rw [show 4 + 2 * j + 1 = 2 * j + 1 + 1 + 1 + 1 + 1 by omega]
    simp only [List.cons_append, List.nil_append, List.getElem?_cons_succ]
    exact hr.2

/-- Witness for the C9 theorem: a one-child composition against the empty
index table. -/
theorem encode_unknown_child_zero_index_witness :
    ∃ bs, EncodeSegment (.composition [.literal []]) false [] = some bs ∧
      bs[4 + 2 * 0]? = some 0 ∧ bs[4 + 2 * 0 + 1]? = some 0 :=
  encode_unknown_child_zero_index [.literal []] false [] 0 (.literal [])
    (by decide) (by decide)

/-- C10: `EncodeSegment` stores a record's segment length — the interface
count of a Literal, the child count of a Composition — as its value modulo
256 in the single `seglen` byte, and `EncodeSegments` stores `numsegs` as
the final running index (`len(oldSegments) + len(sentSegments)`) modulo
65536 in the two-byte header field; no error is raised for counts at or
above those bounds. -/
theorem encode_truncates_counts :
    (∀ (ifaces : List PathInterface) (accepted : Bool) (m : SegIdx),
      ∃ bs, EncodeSegment (.literal ifaces) accepted m = some bs ∧
        bs[1]? = some (ifaces.length % 256)) ∧
    (∀ (cs : List Segment) (accepted : Bool) (m : SegIdx),
      ∃ bs, EncodeSegment (.composition cs) accepted m = some bs ∧
        bs[1]? = some (cs.length % 256)) ∧
    (∀ (ns os : List Segment) (srcIA dstIA : Nat) (B : List Nat) (S : List Segment),
      EncodeSegments ns os srcIA dstIA = some (B, S) →
        readU16 B 2 = some ((os.length + S.length) % 65536)) := by
  refine ⟨fun ifaces accepted m => ⟨_, rfl, rfl⟩,
    fun cs accepted m => ⟨_, rfl, rfl⟩,
    fun ns os srcIA dstIA B S h => ?_⟩
  obtain ⟨body, hB⟩ := encodeSegments_shape ns os srcIA dstIA B S h
  rw [hB]
  simp only [List.append_assoc, List.cons_append, List.nil_append]
  exact readU16_header _ _

set_option maxRecDepth 4000 in
/-- Witness for the C10 theorem: a 300-interface Literal (seglen byte 44),
an empty Composition, and a one-record encode call. -/
theorem encode_truncates_counts_witness :
    (∃ bs, EncodeSegment (.literal (List.replicate 300 ⟨0, 0⟩)) false [] = some bs ∧
      bs[1]? = some (300 % 256)) ∧
    (∃ bs, EncodeSegment (.composition []) true [] = some bs ∧
      bs[1]? = some (0 % 256)) ∧
    readU16 [0, 20, 0, 1, 0, 0, 0, 0, 0, 0, 0, 5, 0, 0, 0, 0, 0, 0, 0, 5, 3, 0, 0, 0] 2 =
      some ((List.length ([] : List Segment) + List.length [Segment.composition []]) % 65536) :=
  ⟨encode_truncates_counts.1 (List.replicate 300 ⟨0, 0⟩) false [],
    encode_truncates_counts.2.1 [] true [],
    encode_truncates_counts.2.2 [.composition []] [] 5 5 _ [.composition []] (by decide)⟩

end Pns
